import Mathlib

/-!
Verification of the mjolnir kafka bulk daemon (`mjolnir/kafka/bulk_daemon.py`).

This file gives a shallow embedding of the daemon's core functions and proves
or refutes the specified properties about them:

* a JSON value model (payloads are parsed python dicts/lists/scalars);
* the jsonschema `Draft4Validator` for the fixed update-request schema
  (`VALIDATOR` in the source), returning the list of all violations as
  `iter_errors` does;
* `expand_action`, the update-request to bulk-action transform;
* `stream_to_es`'s per-response-item counter classification;
* `split_records_by_cluster`, the per-record decode / validate / route step;
* `ttl_memoize`'s cache logic (`MemoizeEntry`, the inner `memoized` closure);
* the `run` consume loop, modelled as a state machine over iteration inputs
  (poll batches with a monotonic clock) that emits an event trace
  (commits, submissions, offset staging, shutdown).

Numbers: JSON numbers are decimal literals; they are carried around but never
computed with by the daemon, so they are modelled exactly as a mantissa and a
power-of-ten denominator (`jnum m e` stands for m * 10^(-e)).  Python ints are
`jint`.  The jsonschema draft-4 type checks treat `jint` as both "integer" and
"number", `jnum` as "number" only, and booleans as neither (python jsonschema
excludes `bool` from the numeric types).

Objects and arrays are sibling inductives (`JsonObj`, `JsonArr`) so that
decidable equality can be derived; `JsonObj.toList` recovers the usual
key/value list view of a python dict, in insertion order.
-/

mutual

/-- Model of a parsed JSON value (what `json.loads` returns). -/
inductive JsonValue where
  | jnull : JsonValue
  | jbool (b : Bool) : JsonValue
  | jint (n : Int) : JsonValue
  | jnum (mantissa : Int) (exp10 : Nat) : JsonValue
  | jstr (s : String) : JsonValue
  | jarr (items : JsonArr) : JsonValue
  | jobj (fields : JsonObj) : JsonValue

/-- A JSON array's item list. -/
inductive JsonArr where
  | nil : JsonArr
  | cons (head : JsonValue) (tail : JsonArr) : JsonArr

/-- A JSON object's field list (a python dict, in insertion order). -/
inductive JsonObj where
  | nil : JsonObj
  | cons (key : String) (val : JsonValue) (tail : JsonObj) : JsonObj

end

deriving instance DecidableEq for JsonValue, JsonArr, JsonObj

/-- View a `JsonObj` as an ordinary key/value list. -/
def JsonObj.toList : JsonObj → List (String × JsonValue)
  | .nil => []
  | .cons k v t => (k, v) :: toList t

/-- Build a `JsonObj` from a key/value list (used for concrete payloads). -/
def JsonObj.ofList : List (String × JsonValue) → JsonObj
  | [] => .nil
  | (k, v) :: t => .cons k v (ofList t)

/-- Python dict lookup on an object's field list (`d[key]`, first match). -/
def jsonLookup (key : String) : List (String × JsonValue) → Option JsonValue
  | [] => none
  | kv :: rest => if kv.1 = key then some kv.2 else jsonLookup key rest

/-- `value[key]` for an object; `none` models a python `KeyError`/`TypeError`. -/
def JsonValue.getKey (v : JsonValue) (key : String) : Option JsonValue :=
  match v with
  | .jobj fields => jsonLookup key fields.toList
  | _ => none

/-- The configured updatable fields and their no-op policies (`FIELD_CONFIG`). -/
def FIELD_CONFIG : List (String × String) := [("popularity_score", "within 20%")]

/-- `FIELD_CONFIG[field]` (first match; `none` models a `KeyError`). -/
def fieldConfigLookup (key : String) : List (String × String) → Option String
  | [] => none
  | kv :: rest => if kv.1 = key then some kv.2 else fieldConfigLookup key rest

/-- Keys of `FIELD_CONFIG`, i.e. the schema's `_source` property names. -/
def fieldKeys : List String := FIELD_CONFIG.map Prod.fst

/-- The top-level properties of the update-request schema. -/
def topLevelKeys : List String := ["_index", "_id", "_source"]

/-- A single violation reported by `VALIDATOR.iter_errors`. -/
inductive SchemaError where
  | notObject : SchemaError
  | additionalProperty (keys : List String) : SchemaError
  | requiredMissing (key : String) : SchemaError
  | indexNotString : SchemaError
  | idNotIntOrString : SchemaError
  | sourceNotObject : SchemaError
  | sourceAdditionalProperty (keys : List String) : SchemaError
  | sourceTooFewProperties : SchemaError
  | sourcePropBadType (key : String) : SchemaError
deriving DecidableEq

/-- Draft-4 type "number" or "string" (python: int, float or str; bool excluded). -/
def isNumberOrString : JsonValue → Bool
  | .jint _ => true
  | .jnum _ _ => true
  | .jstr _ => true
  | _ => false

/-- Draft-4 type `["integer", "string"]` for `_id`. -/
def isIntOrString : JsonValue → Bool
  | .jint _ => true
  | .jstr _ => true
  | _ => false

/-- Draft-4 type "string" for `_index`. -/
def isString : JsonValue → Bool
  | .jstr _ => true
  | _ => false

/-- Validation of the `_source` sub-schema: an object with
`additionalProperties: false` over `fieldKeys`, `minProperties: 1`, and each
configured property of type number-or-string. -/
def validateSource (v : JsonValue) : List SchemaError :=
  match v with
  | .jobj o =>
      (let extra := (o.toList.map Prod.fst).filter (fun k => !(fieldKeys.contains k))
       if extra = [] then [] else [.sourceAdditionalProperty extra]) ++
      (if o.toList.length < 1 then [.sourceTooFewProperties] else []) ++
      (o.toList.filterMap (fun kv =>
        if fieldKeys.contains kv.1 && !(isNumberOrString kv.2)
        then some (.sourcePropBadType kv.1) else none))
  | _ => [.sourceNotObject]

/-- All violations of the fixed update-request schema for one decoded value,
as enumerated by `list(VALIDATOR.iter_errors(value))`:  the instance must be
an object whose keys are exactly drawn from `topLevelKeys` (all three
required), `_index` a string, `_id` an integer or string, and `_source`
matching `validateSource`.  A non-object yields the single type error. -/
def validate (v : JsonValue) : List SchemaError :=
  match v with
  | .jobj o =>
      (let extra := (o.toList.map Prod.fst).filter (fun k => !(topLevelKeys.contains k))
       if extra = [] then [] else [.additionalProperty extra]) ++
      ((topLevelKeys.filter (fun k => !((o.toList.map Prod.fst).contains k))).map
        .requiredMissing) ++
      (match jsonLookup "_index" o.toList with
       | some ix => if isString ix then [] else [.indexNotString]
       | none => []) ++
      (match jsonLookup "_id" o.toList with
       | some idv => if isIntOrString idv then [] else [.idNotIntOrString]
       | none => []) ++
      (match jsonLookup "_source" o.toList with
       | some src => validateSource src
       | none => [])
  | _ => [.notObject]

/-- The action descriptor half of `expand_action`'s result:
`{'update': {'_index': ..., '_type': 'page', '_id': ...}}`. -/
structure UpdateAction where
  index : JsonValue
  doctype : String
  id : JsonValue
deriving DecidableEq

/-- The body half of `expand_action`'s result:
`{'script': {'inline': ..., 'lang': ..., 'params': {'handlers': ..., 'source': ...}}}`. -/
structure ScriptSource where
  inline : String
  lang : String
  handlers : List (String × String)
  source : JsonValue
deriving DecidableEq

/-- `{field: FIELD_CONFIG[field] for field in keys}`: `none` models the
`KeyError` raised when a key is not configured. -/
def buildHandlers : List String → Option (List (String × String))
  | [] => some []
  | k :: ks =>
    match fieldConfigLookup k FIELD_CONFIG, buildHandlers ks with
    | some policy, some rest => some ((k, policy) :: rest)
    | _, _ => none

/-- `expand_action(message)`: transform an update request into an es bulk
update.  `none` models the exceptions python would raise on records that did
not pass validation (missing keys, non-dict `_source`, unconfigured field). -/
def expand_action (message : JsonValue) : Option (UpdateAction × ScriptSource) :=
  match message.getKey "_index", message.getKey "_id", message.getKey "_source" with
  | some ix, some idv, some src =>
    match src with
    | .jobj so =>
      match buildHandlers (so.toList.map Prod.fst) with
      | some hs => some (⟨ix, "page", idv⟩, ⟨"super_detect_noop", "native", hs, src⟩)
      | none => none
    | _ => none
  | _, _, _ => none

/-- The prometheus counters of `Metric`, as plain naturals.  `bulkNoop` etc.
are the labelled children of `mjolnir_bulk_action_total`; `failValidate` and
`missingIndex` those of `mjolnir_bulk_invalid_records_total`. -/
structure Metrics where
  failValidate : Nat
  missingIndex : Nat
  recordsProcessed : Nat
  bulkUpdated : Nat
  bulkCreated : Nat
  bulkNoop : Nat
  bulkOkUnknown : Nat
  bulkMissing : Nat
  bulkFailed : Nat
deriving DecidableEq

/-- All counters start at zero. -/
def Metrics.init : Metrics := ⟨0, 0, 0, 0, 0, 0, 0, 0, 0⟩

/-- Sum of the six `bulk_action` result counters. -/
def Metrics.totalBulk (m : Metrics) : Nat :=
  m.bulkUpdated + m.bulkCreated + m.bulkNoop + m.bulkOkUnknown + m.bulkMissing +
    m.bulkFailed

/-- One `log.warning` call, with the data the source interpolates into it. -/
inductive LogEvent where
  /-- `'Invalid message: %s'` with the first 128 bytes of the raw payload. -/
  | invalidMessage (rawHead : List Nat) : LogEvent
  /-- The newline-joined rendering of every `iter_errors` violation. -/
  | validationErrors (errors : List SchemaError) : LogEvent
  /-- `'Could not find cluster for index %s'` with the record's `_index`. -/
  | missingIndexLog (index : JsonValue) : LogEvent
  /-- `'Failed elasticsearch %s request: %s'` with the response item's single
  operation key and the `str` rendering of its info dict cut to 512 chars. -/
  | failedRequest (opKey : String) (rendering : String) : LogEvent
deriving DecidableEq

/-- The info dict of one bulk response item (the value under its single
operation key): its optional `status` and `result` fields, plus the `str`
rendering python would produce for it. -/
structure BulkItemInfo where
  status : Option Nat
  result : Option JsonValue
  rendering : String
deriving DecidableEq

/-- One `(ok, result)` pair yielded by `streaming_bulk`: the 2xx flag and the
response item, already split by `popitem()` into its single operation key
(e.g. `"update"`) and the info dict under it. -/
structure BulkItem where
  ok : Bool
  opKey : String
  info : BulkItemInfo
deriving DecidableEq

/-- The keys of `Metric.ACTION_RESULTS`. -/
def actionResultKeys : List String := ["updated", "created", "noop"]

/-- The loop body of `stream_to_es` for one response item: pick counters from
`status = result.get('status', 500)`, the `ok` flag and the `result` field,
and emit the failure log when neither ok nor a 404. -/
def processBulkItem (m : Metrics) (item : BulkItem) : Metrics × List LogEvent :=
  let status := item.info.status.getD 500
  if item.ok then
    match item.info.result with
    | some (.jstr s) =>
      if s = "updated" then ({ m with bulkUpdated := m.bulkUpdated + 1 }, [])
      else if s = "created" then ({ m with bulkCreated := m.bulkCreated + 1 }, [])
      else if s = "noop" then ({ m with bulkNoop := m.bulkNoop + 1 }, [])
      else ({ m with bulkOkUnknown := m.bulkOkUnknown + 1 }, [])
    | _ => ({ m with bulkOkUnknown := m.bulkOkUnknown + 1 }, [])
  else if status = 404 then
    ({ m with bulkMissing := m.bulkMissing + 1 }, [])
  else
    ({ m with bulkFailed := m.bulkFailed + 1 },
      [.failedRequest item.opKey (item.info.rendering.take 512)])

/-- `stream_to_es`, folded over the response items the bulk call yields for
the submitted records; returns the updated counters and the emitted logs. -/
def stream_to_es (m : Metrics) (items : List BulkItem) : Metrics × List LogEvent :=
  items.foldl
    (fun acc item =>
      let step := processBulkItem acc.1 item
      (step.1, acc.2 ++ step.2))
    (m, [])

/-- A raw kafka message payload, together with the outcome of
`json.loads(value.decode('utf-8'))` on it: `malformed` raises `ValueError`,
`wellFormed` decodes to the given JSON value. -/
inductive Payload where
  | malformed (bytes : List Nat) : Payload
  | wellFormed (bytes : List Nat) (value : JsonValue) : Payload
deriving DecidableEq

/-- `record.value[:128]`, the logged payload head. -/
def Payload.rawHead : Payload → List Nat
  | .malformed bytes => bytes.take 128
  | .wellFormed bytes _ => bytes.take 128

/-- Decoding outcome (`none` models the caught `ValueError`). -/
def Payload.decode : Payload → Option JsonValue
  | .malformed _ => none
  | .wellFormed _ v => some v

/-- One kafka `ConsumerRecord`: its partition's offset and raw value. -/
structure ConsumerRecord where
  offset : Nat
  payload : Payload
deriving DecidableEq

/-- `value['_index'] in indices` where `indices` is a cluster's set of string
index names: only a string can be a member. -/
def containsIndex (indices : List String) : JsonValue → Bool
  | .jstr s => indices.contains s
  | _ => false

/-- The routing scan of `split_records_by_cluster`: index of the first cluster
whose set contains the record's `_index` (`for i, indices in enumerate(...)`
with `break`), or `none` for the `else` branch of the `for`. -/
def routeJson : List (List String) → JsonValue → Option Nat
  | [], _ => none
  | c :: cs, ix =>
    if containsIndex c ix then some 0 else (routeJson cs ix).map (· + 1)

/-- `split[i].append(x)`: append `x` to the `i`-th sub-batch, leaving the
others (and an out-of-range `i`) unchanged. -/
def appendAt : List (List JsonValue) → Nat → JsonValue → List (List JsonValue)
  | [], _, _ => []
  | l :: ls, 0, x => (l ++ [x]) :: ls
  | l :: ls, i + 1, x => l :: appendAt ls i x

/-- The evolving state of `split_records_by_cluster`: the per-cluster
sub-batches, the counters, and the warnings logged so far. -/
structure SplitOut where
  split : List (List JsonValue)
  metrics : Metrics
  logs : List LogEvent
deriving DecidableEq

/-- The loop body of `split_records_by_cluster` for one record: decode the
payload (log and drop a `ValueError`), validate (count `fail_validate`, log
all violations and drop), then scan the clusters in order and append to the
first match, or count `missing_index`, log and drop.  The inner `none` arm is
unreachable: validation guarantees `_index` is present. -/
def processRecord (clusters : List (List String)) (st : SplitOut)
    (r : ConsumerRecord) : SplitOut :=
  match r.payload.decode with
  | none => { st with logs := st.logs ++ [.invalidMessage r.payload.rawHead] }
  | some v =>
    if validate v = [] then
      match v.getKey "_index" with
      | some ix =>
        match routeJson clusters ix with
        | some i => { st with split := appendAt st.split i v }
        | none =>
          { st with
              metrics := { st.metrics with
                missingIndex := st.metrics.missingIndex + 1 }
              logs := st.logs ++ [.missingIndexLog ix] }
      | none => st
    else
      { st with
          metrics := { st.metrics with
            failValidate := st.metrics.failValidate + 1 }
          logs := st.logs ++ [.validationErrors (validate v)] }

/-- `split_records_by_cluster(indices_on_clusters, poll_response)`: iterate
over every record of every partition of the poll response (dict iteration
order) starting from one empty sub-batch per cluster. -/
def split_records_by_cluster (clusters : List (List String)) (m : Metrics)
    (poll : List (Nat × List ConsumerRecord)) : SplitOut :=
  ((poll.map Prod.snd).flatten).foldl (processRecord clusters)
    ⟨clusters.map (fun _ => []), m, []⟩

/-- `MemoizeEntry(value, valid_until)` from `ttl_memoize`. -/
structure MemoizeEntry (V : Type) where
  value : V
  valid_until : Int
deriving DecidableEq

/-- The fixed `TTL = 300` of `ttl_memoize`, in seconds. -/
def TTL : Int := 300

/-- One call of the `memoized` closure built by `ttl_memoize`, for the
no-argument key used by the daemon's route-table producer.  `cache` is the
entry stored under that key (if any), `now` the clock read, and `fres` the
outcome the producer `f` would have if invoked (`Except.error` models `f`
raising).  Returns the call's outcome, the cache afterwards, and whether `f`
was invoked.  A fresh or still-valid entry is returned without calling `f`;
otherwise `f` is called, and only a successful result is stored (with
deadline `now + TTL`) because an exception propagates before the assignment
`cache[args] = MemoizeEntry(value, now + TTL)` runs. -/
def memoizedCall {V E : Type} (cache : Option (MemoizeEntry V)) (now : Int)
    (fres : Except E V) : Except E V × Option (MemoizeEntry V) × Bool :=
  match cache with
  | some entry =>
    if entry.valid_until > now then (.ok entry.value, some entry, false)
    else
      match fres with
      | .ok v => (.ok v, some ⟨v, now + TTL⟩, true)
      | .error e => (.error e, some entry, true)
  | none =>
    match fres with
    | .ok v => (.ok v, some ⟨v, now + TTL⟩, true)
    | .error e => (.error e, none, true)

/-- An observable step of the `run` consume loop. -/
inductive Event where
  /-- `consumer.commit_async(offsets)` with the staged (partition, offset)s. -/
  | commitAsync (offsets : List (Nat × Nat)) : Event
  /-- A warning logged while splitting the batch. -/
  | logged (e : LogEvent) : Event
  /-- `stream_to_es(cluster, records)` was called and returned: the sub-batch
  of decoded records sent to (and fully consumed by) cluster `i`. -/
  | submit (cluster : Nat) (values : List JsonValue) : Event
  /-- `offsets[tp] = OffsetAndMetadata(records[-1].offset + 1, '')`. -/
  | stage (partition : Nat) (nextOffset : Nat) : Event
  /-- The synchronous `consumer.commit(offsets)` of the `finally` block. -/
  | commitSync (offsets : List (Nat × Nat)) : Event
  /-- `consumer.close()`. -/
  | closeConsumer : Event
deriving DecidableEq

/-- Event discriminators used by the ordering statements. -/
def Event.isSubmit : Event → Bool
  | .submit _ _ => true
  | _ => false

/-- True exactly on `stage` events. -/
def Event.isStage : Event → Bool
  | .stage _ _ => true
  | _ => false

/-- True exactly on `commitAsync` events. -/
def Event.isCommitAsync : Event → Bool
  | .commitAsync _ => true
  | _ => false

/-- The loop-carried state of `run`: `last_commit`, the staged `offsets` dict
(as an association list in insertion order) and the metric counters. -/
structure RunState where
  lastCommit : Int
  offsets : List (Nat × Nat)
  metrics : Metrics
deriving DecidableEq

/-- `last_commit = 0`, `offsets = {}` at loop entry. -/
def initState (m : Metrics) : RunState := ⟨0, [], m⟩

/-- `offsets[tp] = v`: dict assignment on the association list. -/
def setAssoc : List (Nat × Nat) → Nat → Nat → List (Nat × Nat)
  | [], p, v => [(p, v)]
  | (q, w) :: rest, p, v =>
    if q = p then (q, v) :: rest else (q, w) :: setAssoc rest p v

/-- The offset-staging loop `for tp, records in batch.items(): offsets[tp] =
OffsetAndMetadata(records[-1].offset + 1, '')`.  (kafka-python never returns
an empty record list for a polled partition; such an entry is skipped here
where python would raise `IndexError`.) -/
def stageOffsets (offsets : List (Nat × Nat))
    (batch : List (Nat × List ConsumerRecord)) : List (Nat × Nat) :=
  batch.foldl
    (fun acc pr =>
      match pr.2.getLast? with
      | some r => setAssoc acc pr.1 (r.offset + 1)
      | none => acc)
    offsets

/-- The `stage` events recorded for a batch, one per polled partition. -/
def stageEventsOf (batch : List (Nat × List ConsumerRecord)) : List Event :=
  batch.filterMap
    (fun pr => (pr.2.getLast?).map (fun r => Event.stage pr.1 (r.offset + 1)))

/-- The `submit` events of one iteration: `for cluster, records in
zip(es_clusters, split): if records: stream_to_es(cluster, records)`, with
`k` the index of the first sub-batch. -/
def submitEvents (k : Nat) : List (List JsonValue) → List Event
  | [] => []
  | rs :: rest =>
    (if rs = [] then [] else [Event.submit k rs]) ++ submitEvents (k + 1) rest

/-- Total record count of a poll response (`sum(len(x) for x in
batch.values())`). -/
def countRecords (batch : List (Nat × List ConsumerRecord)) : Nat :=
  (batch.map (fun pr => pr.2.length)).foldl (· + ·) 0

/-- The commit gate at the top of each iteration: `if offsets and now -
last_commit > offset_commit_interval_sec: commit_async; last_commit = now;
offsets = {}`. -/
def commitGate (st : RunState) (now : Int) : RunState × List Event :=
  if st.offsets ≠ [] ∧ now - st.lastCommit > 60 then
    (⟨now, [], st.metrics⟩, [Event.commitAsync st.offsets])
  else (st, [])

/-- The external input consumed by one loop iteration: the monotonic clock
read at its top and the poll response. -/
structure IterInput where
  now : Int
  batch : List (Nat × List ConsumerRecord)
deriving DecidableEq

/-- One iteration of the `while True` loop of `run` (with a fixed route
table, the value the memoized producer returns during the iteration): run the
commit gate, poll; on an empty poll, `continue`; otherwise count the records,
split them by cluster, submit each non-empty sub-batch in cluster order, then
stage `last offset + 1` for every polled partition.  Returns the next state
and the iteration's events in program order. -/
def runIter (clusters : List (List String)) (st : RunState)
    (inp : IterInput) : RunState × List Event :=
  let g := commitGate st inp.now
  if inp.batch = [] then (g.1, g.2)
  else
    let m1 := { g.1.metrics with
      recordsProcessed := g.1.metrics.recordsProcessed + countRecords inp.batch }
    let out := split_records_by_cluster clusters m1 inp.batch
    (⟨g.1.lastCommit, stageOffsets g.1.offsets inp.batch, out.metrics⟩,
      g.2 ++ out.logs.map Event.logged ++ submitEvents 0 out.split ++
        stageEventsOf inp.batch)

/-- The consume loop run over a list of iteration inputs: the final state and
one event list per iteration, in order. -/
def runTrace (clusters : List (List String)) :
    RunState → List IterInput → RunState × List (List Event)
  | st, [] => (st, [])
  | st, inp :: rest =>
    let step := runIter clusters st inp
    let next := runTrace clusters step.1 rest
    (next.1, step.2 :: next.2)

/-- The `finally` block of `run`: `if offsets: consumer.commit(offsets)` then
`consumer.close()`.  `commitRaises` says whether the synchronous commit
raises; if it does, control leaves the `finally` block before `close()`. -/
def shutdownEvents (offsets : List (Nat × Nat)) (commitRaises : Bool) :
    List Event :=
  if offsets = [] then [Event.closeConsumer]
  else if commitRaises then [Event.commitSync offsets]
  else [Event.commitSync offsets, Event.closeConsumer]

/-- The records a poll response holds for partition `p`, in delivery order. -/
def recsOf (p : Nat) (batch : List (Nat × List ConsumerRecord)) :
    List ConsumerRecord :=
  ((batch.filter (fun pr => pr.1 == p)).map Prod.snd).flatten

/-- All records delivered for partition `p` over a whole run, in order. -/
def allRecs (p : Nat) (inputs : List IterInput) : List ConsumerRecord :=
  (inputs.map (fun inp => recsOf p inp.batch)).flatten

/-- A concrete valid update request, scenario S1 of the spec. -/
def sampleRecord : JsonValue :=
  .jobj (.ofList
    [("_index", .jstr "enwiki_content"), ("_id", .jint 42),
     ("_source", .jobj (.ofList [("popularity_score", .jnum 5 1)]))])

/-- True exactly on records that decode but fail schema validation (the
records for which the splitter bumps `fail_validate`). -/
def failsValidation (r : ConsumerRecord) : Bool :=
  match r.payload.decode with
  | some v => !(validate v).isEmpty
  | none => false

/-- C7: two calls to the memoized route-table producer made less than 300
seconds after the value was built (`valid_until = t + 300`) return the cached
value without invoking the producer and leave the cache unchanged; a call at
or past the deadline re-invokes the producer and stores the fresh value with
a new `now + TTL` deadline; the TTL is the fixed constant 300 seconds. -/
theorem ttl_memoize_correct {V E : Type} (entry : MemoizeEntry V) (v3 : V)
    (t now1 now2 now3 : Int) (f1 f2 : Except E V)
    (hvu : entry.valid_until = t + 300)
    (h1 : now1 - t < 300) (h2 : now2 - t < 300) (h3 : t + 300 ≤ now3) :
    memoizedCall (some entry) now1 f1 = (.ok entry.value, some entry, false) ∧
    memoizedCall (some entry) now2 f2 = (.ok entry.value, some entry, false) ∧
    memoizedCall (some entry) now3 (Except.ok v3 : Except E V) =
      (.ok v3, some ⟨v3, now3 + TTL⟩, true) ∧
    TTL = 300 := by
  refine ⟨?_, ?_, ?_, rfl⟩ <;> simp only [memoizedCall]
  · rw [if_pos (by omega)]
  · rw [if_pos (by omega)]
  · rw [if_neg (by omega)]

/-- Closed instance of `ttl_memoize_correct` at concrete times. -/
theorem ttl_memoize_correct_witness :
    memoizedCall (some (⟨0, 300⟩ : MemoizeEntry Nat)) 10
        (Except.error () : Except Unit Nat) =
      (.ok 0, some ⟨0, 300⟩, false) ∧
    memoizedCall (some (⟨0, 300⟩ : MemoizeEntry Nat)) 301
        (Except.ok 9 : Except Unit Nat) =
      (.ok 9, some ⟨9, (301 : Int) + TTL⟩, true) := by
  have h := ttl_memoize_correct (⟨0, 300⟩ : MemoizeEntry Nat) 9 0 10 299 301
    (Except.error () : Except Unit Nat) (Except.error ())
    (by decide) (by omega) (by omega) (by omega)
  exact ⟨h.1, h.2.2.1⟩

/-- C10: if the producer raises during a rebuild (cache miss or expired
entry), the exception propagates and the cache is unchanged; after such a
failed refresh the entry is still expired, so a later call re-invokes the
producer (and a successful one returns and stores the fresh value, never the
stale one); and the cache is only ever changed by a successful producer
call, which stores the new value with deadline `now + TTL`. -/
theorem cache_refresh_failure {V E : Type} (entry : MemoizeEntry V)
    (cache : Option (MemoizeEntry V)) (now now2 : Int) (e : E) (v2 : V)
    (fres : Except E V) (hexp : entry.valid_until ≤ now) (hle : now ≤ now2) :
    memoizedCall (none : Option (MemoizeEntry V)) now (Except.error e) =
      (.error e, none, true) ∧
    memoizedCall (some entry) now (Except.error e) =
      (.error e, some entry, true) ∧
    (memoizedCall (some entry) now2 fres).2.2 = true ∧
    memoizedCall (some entry) now2 (Except.ok v2 : Except E V) =
      (.ok v2, some ⟨v2, now2 + TTL⟩, true) ∧
    ((memoizedCall cache now fres).2.1 ≠ cache →
      ∃ w, fres = .ok w ∧ (memoizedCall cache now fres).2.1 = some ⟨w, now + TTL⟩) := by
  refine ⟨rfl, ?_, ?_, ?_, ?_⟩
  · simp only [memoizedCall]
    rw [if_neg (by omega)]
  · simp only [memoizedCall]
    rw [if_neg (by omega)]
    cases fres <;> rfl
  · simp only [memoizedCall]
    rw [if_neg (by omega)]
  · intro hne
    match cache with
    | none =>
      cases fres with
      | ok w => exact ⟨w, rfl, rfl⟩
      | error er => exact absurd rfl hne
    | some en =>
      simp only [memoizedCall] at hne ⊢
      by_cases hv : en.valid_until > now
      · rw [if_pos hv] at hne; exact absurd rfl hne
      · rw [if_neg hv] at hne ⊢
        cases fres with
        | ok w => exact ⟨w, rfl, rfl⟩
        | error er => exact absurd rfl hne

/-- Closed instance of `cache_refresh_failure` at a concrete expired entry. -/
theorem cache_refresh_failure_witness :
    memoizedCall (some (⟨5, 100⟩ : MemoizeEntry Nat)) 100
        (Except.error () : Except Unit Nat) =
      (.error (), some ⟨5, 100⟩, true) ∧
    memoizedCall (some (⟨5, 100⟩ : MemoizeEntry Nat)) 150
        (Except.ok 8 : Except Unit Nat) =
      (.ok 8, some ⟨8, (150 : Int) + TTL⟩, true) := by
  have h := cache_refresh_failure (⟨5, 100⟩ : MemoizeEntry Nat) none 100 150 () 8
    (Except.error () : Except Unit Nat) (by decide) (by omega)
  exact ⟨h.2.1, h.2.2.2.1⟩

/-- C8 counterexample: with offsets staged and exactly 60 seconds elapsed
since the last commit, the claim requires an asynchronous commit ("at least
60 seconds"), but the gate `now - last_commit > 60` is strict, so nothing is
committed and the state is unchanged. -/
theorem commit_gate_counterexample :
    commitGate ⟨0, [(0, 5)], Metrics.init⟩ 60 = (⟨0, [(0, 5)], Metrics.init⟩, []) ∧
    ([(0, 5)] : List (Nat × Nat)) ≠ [] ∧ (60 : Int) - 0 ≥ 60 := by
  refine ⟨?_, by decide, by decide⟩
  rw [commitGate, if_neg (by decide)]

/-- C8 (amended): the asynchronous commit is issued iff the staged-offset map
is non-empty and strictly more than 60 seconds of monotonic time have
elapsed since the last commit; when issued, the commit carries the staged
offsets, the timestamp is recorded and the staging map is cleared; otherwise
the state (staged offsets included) is unchanged and nothing is emitted. -/
theorem commit_gate_amended (st : RunState) (now : Int) :
    (commitGate st now = (⟨now, [], st.metrics⟩, [Event.commitAsync st.offsets]) ↔
      st.offsets ≠ [] ∧ now - st.lastCommit > 60) ∧
    (¬(st.offsets ≠ [] ∧ now - st.lastCommit > 60) → commitGate st now = (st, [])) := by
  unfold commitGate
  by_cases h : st.offsets ≠ [] ∧ now - st.lastCommit > 60
  · rw [if_pos h]
    exact ⟨⟨fun _ => h, fun _ => rfl⟩, fun hc => absurd h hc⟩
  · rw [if_neg h]
    refine ⟨⟨fun heq => ?_, fun hh => absurd hh h⟩, fun _ => rfl⟩
    have hsnd := congrArg Prod.snd heq
    simp at hsnd

/-- Closed instance of `commit_gate_amended`: at 61 seconds the commit fires. -/
theorem commit_gate_amended_witness :
    commitGate ⟨0, [(0, 5)], Metrics.init⟩ 61 =
      (⟨61, [], Metrics.init⟩, [Event.commitAsync [(0, 5)]]) :=
  (commit_gate_amended ⟨0, [(0, 5)], Metrics.init⟩ 61).1.mpr
    ⟨by decide, by decide⟩

/-- C5 counterexample: with staged offsets and a synchronous commit that
raises, the `finally` block stops at the commit and `consumer.close()` is
never executed, contradicting the claim that closure runs even if the commit
raises. -/
theorem shutdown_close_counterexample :
    shutdownEvents [(0, 5)] true = [Event.commitSync [(0, 5)]] ∧
    Event.closeConsumer ∉ shutdownEvents [(0, 5)] true := by
  constructor
  · rfl
  · intro h
    rw [show shutdownEvents [(0, 5)] true = [Event.commitSync [(0, 5)]] from rfl] at h
    simp at h

/-- C5 (amended): when the loop exits, a synchronous commit of any non-empty
staged offsets is issued and then the consumer is closed — but only when the
commit does not raise; if the synchronous commit raises, the close is not
executed and the exception propagates. -/
theorem shutdown_sequence_amended (offsets : List (Nat × Nat))
    (commitRaises : Bool) :
    (commitRaises = false →
      shutdownEvents offsets commitRaises =
        (if offsets = [] then [] else [Event.commitSync offsets]) ++
          [Event.closeConsumer]) ∧
    (offsets ≠ [] → commitRaises = true →
      shutdownEvents offsets commitRaises = [Event.commitSync offsets] ∧
      Event.closeConsumer ∉ shutdownEvents offsets commitRaises) := by
  unfold shutdownEvents
  by_cases ho : offsets = [] <;> cases commitRaises <;> simp [ho]

/-- Closed instance of `shutdown_sequence_amended`. -/
theorem shutdown_sequence_amended_witness :
    shutdownEvents [(1, 3)] false =
      (if ([(1, 3)] : List (Nat × Nat)) = [] then []
        else [Event.commitSync [(1, 3)]]) ++ [Event.closeConsumer] :=
  (shutdown_sequence_amended [(1, 3)] false).1 rfl

/-- C4 counterexample: a record whose payload fails to decode is dropped and
its 128-byte prefix logged, but no `invalid_records` counter is incremented —
`fail_validate` stays at 0 where the claim requires an increment. -/
theorem malformed_payload_counterexample :
    (processRecord [["enwiki_content"]] ⟨[[]], Metrics.init, []⟩
        ⟨7, Payload.malformed [1, 2, 3]⟩).metrics.failValidate = 0 ∧
    (processRecord [["enwiki_content"]] ⟨[[]], Metrics.init, []⟩
        ⟨7, Payload.malformed [1, 2, 3]⟩).metrics = Metrics.init ∧
    (processRecord [["enwiki_content"]] ⟨[[]], Metrics.init, []⟩
        ⟨7, Payload.malformed [1, 2, 3]⟩).logs =
      [LogEvent.invalidMessage [1, 2, 3]] := by
  refine ⟨rfl, rfl, rfl⟩

/-- C4 (amended): a polled record whose raw payload fails to decode as UTF-8
JSON is dropped before validation, routing or submission, a prefix of at most
128 bytes of the payload is logged, and no counter is incremented (the state
changes only by the appended log line). -/
theorem malformed_payload_amended (clusters : List (List String))
    (st : SplitOut) (r : ConsumerRecord) (bytes : List Nat)
    (h : r.payload = .malformed bytes) :
    processRecord clusters st r =
      { st with logs := st.logs ++ [.invalidMessage (bytes.take 128)] } := by
  unfold processRecord
  rw [h]
  rfl

/-- Closed instance of `malformed_payload_amended`. -/
theorem malformed_payload_amended_witness :
    processRecord [["x"]] ⟨[[]], Metrics.init, []⟩ ⟨3, Payload.malformed [9]⟩ =
      ⟨[[]], Metrics.init, [LogEvent.invalidMessage [9]]⟩ :=
  malformed_payload_amended [["x"]] ⟨[[]], Metrics.init, []⟩
    ⟨3, Payload.malformed [9]⟩ [9] rfl

/-- Each processed bulk response item increments the six `bulk_action`
counters by exactly one in total. -/
theorem processBulkItem_totalBulk (m : Metrics) (item : BulkItem) :
    (processBulkItem m item).1.totalBulk = m.totalBulk + 1 := by
  rcases item with ⟨ok, key, sts, res, rend⟩
  cases ok
  · simp only [processBulkItem]
    rw [if_neg (by simp)]
    split_ifs <;> simp [Metrics.totalBulk] <;> omega
  · cases res with
    | none => simp [processBulkItem, Metrics.totalBulk] <;> omega
    | some v =>
      cases v with
      | jnull => simp [processBulkItem, Metrics.totalBulk] <;> omega
      | jbool b => simp [processBulkItem, Metrics.totalBulk] <;> omega
      | jint n => simp [processBulkItem, Metrics.totalBulk] <;> omega
      | jnum a b => simp [processBulkItem, Metrics.totalBulk] <;> omega
      | jarr a => simp [processBulkItem, Metrics.totalBulk] <;> omega
      | jobj o => simp [processBulkItem, Metrics.totalBulk] <;> omega
      | jstr s =>
        by_cases h1 : s = "updated"
        · simp [processBulkItem, h1, Metrics.totalBulk] <;> omega
        · by_cases h2 : s = "created"
          · simp [processBulkItem, h1, h2, Metrics.totalBulk] <;> omega
          · by_cases h3 : s = "noop"
            · simp [processBulkItem, h1, h2, h3, Metrics.totalBulk] <;> omega
            · simp [processBulkItem, h1, h2, h3, Metrics.totalBulk] <;> omega

/-- Folding `processBulkItem` over a list of items adds the item count to the
total of the `bulk_action` counters, whatever logs are threaded along. -/
theorem stream_fold_totalBulk (items : List BulkItem) :
    ∀ acc : Metrics × List LogEvent,
    ((items.foldl
        (fun acc item =>
          let step := processBulkItem acc.1 item
          (step.1, acc.2 ++ step.2)) acc).1).totalBulk =
      acc.1.totalBulk + items.length := by
  induction items with
  | nil => intro acc; simp
  | cons item rest ih =>
    intro acc
    rw [List.foldl_cons]
    rw [ih]
    rw [processBulkItem_totalBulk]
    simp only [List.length_cons]
    omega

/-- C3: every bulk response item increments exactly one `bulk_action`
counter: an ok (2xx) item with result `updated`/`created`/`noop` bumps that
result's counter, any other ok item bumps `ok_unknown`, a non-ok item with
status 404 bumps `missing` without logging, and every other non-ok item
bumps `failed` and logs the item's operation key together with the rendering
of its info dict truncated to 512 characters.  Over a whole `stream_to_es`
call the `bulk_action` total grows by exactly the number of items. -/
theorem bulk_item_classification (m : Metrics) (item : BulkItem)
    (items : List BulkItem) :
    (processBulkItem m item).1.totalBulk = m.totalBulk + 1 ∧
    (item.ok = true → item.info.result = some (.jstr "updated") →
      processBulkItem m item = ({ m with bulkUpdated := m.bulkUpdated + 1 }, [])) ∧
    (item.ok = true → item.info.result = some (.jstr "created") →
      processBulkItem m item = ({ m with bulkCreated := m.bulkCreated + 1 }, [])) ∧
    (item.ok = true → item.info.result = some (.jstr "noop") →
      processBulkItem m item = ({ m with bulkNoop := m.bulkNoop + 1 }, [])) ∧
    (item.ok = true →
      (∀ s, item.info.result = some (.jstr s) → actionResultKeys.contains s = false) →
      processBulkItem m item = ({ m with bulkOkUnknown := m.bulkOkUnknown + 1 }, [])) ∧
    (item.ok = false → item.info.status.getD 500 = 404 →
      processBulkItem m item = ({ m with bulkMissing := m.bulkMissing + 1 }, [])) ∧
    (item.ok = false → item.info.status.getD 500 ≠ 404 →
      processBulkItem m item =
        ({ m with bulkFailed := m.bulkFailed + 1 },
          [.failedRequest item.opKey (item.info.rendering.take 512)])) ∧
    (stream_to_es m items).1.totalBulk = m.totalBulk + items.length := by
  refine ⟨processBulkItem_totalBulk m item, ?_, ?_, ?_, ?_, ?_, ?_, ?_⟩
  · intro hok hres
    simp [processBulkItem, hok, hres]
  · intro hok hres
    simp [processBulkItem, hok, hres]
  · intro hok hres
    simp [processBulkItem, hok, hres]
  · intro hok hres
    rcases item with ⟨ok, key, sts, res, rend⟩
    simp only at hok
    subst hok
    cases res with
    | none => simp [processBulkItem]
    | some v =>
      cases v with
      | jstr s =>
        have hc := hres s rfl
        have h1 : s ≠ "updated" := by
          intro he; subst he; exact absurd hc (by decide)
        have h2 : s ≠ "created" := by
          intro he; subst he; exact absurd hc (by decide)
        have h3 : s ≠ "noop" := by
          intro he; subst he; exact absurd hc (by decide)
        simp [processBulkItem, h1, h2, h3]
      | jnull => simp [processBulkItem]
      | jbool b => simp [processBulkItem]
      | jint n => simp [processBulkItem]
      | jnum a b => simp [processBulkItem]
      | jarr a => simp [processBulkItem]
      | jobj o => simp [processBulkItem]
  · intro hok hst
    simp [processBulkItem, hok, hst]
  · intro hok hst
    simp [processBulkItem, hok, hst]
  · rw [stream_to_es]
    exact stream_fold_totalBulk items (m, [])

/-- Closed instance of `bulk_item_classification`: a non-ok, non-404 item is
counted as failed and logged truncated; a 404 item is counted as missing
with no log. -/
theorem bulk_item_classification_witness :
    processBulkItem Metrics.init ⟨false, "update", ⟨some 500, none, "boom"⟩⟩ =
      ({ Metrics.init with bulkFailed := 1 },
        [LogEvent.failedRequest "update" ("boom".take 512)]) ∧
    processBulkItem Metrics.init ⟨false, "update", ⟨some 404, none, "x"⟩⟩ =
      ({ Metrics.init with bulkMissing := 1 }, []) := by
  constructor
  · exact (bulk_item_classification Metrics.init
      ⟨false, "update", ⟨some 500, none, "boom"⟩⟩ []).2.2.2.2.2.2.1 rfl (by decide)
  · exact (bulk_item_classification Metrics.init
      ⟨false, "update", ⟨some 404, none, "x"⟩⟩ []).2.2.2.2.2.1 rfl rfl

/-- A successful routing index is in range. -/
theorem routeJson_lt_length (cs : List (List String)) (ix : JsonValue) (i : Nat)
    (h : routeJson cs ix = some i) : i < cs.length := by
  induction cs generalizing i with
  | nil => simp [routeJson] at h
  | cons c cs ih =>
    rw [routeJson] at h
    by_cases hc : containsIndex c ix = true
    · rw [if_pos hc] at h
      cases h
      simp
    · rw [if_neg hc] at h
      rcases Option.map_eq_some'.mp h with ⟨j, hj, rfl⟩
      have := ih j hj
      simp
      omega

/-- The routed cluster's set contains the record's index. -/
theorem routeJson_some_mem (cs : List (List String)) (ix : JsonValue) (i : Nat)
    (h : routeJson cs ix = some i) :
    ∃ c, cs[i]? = some c ∧ containsIndex c ix = true := by
  induction cs generalizing i with
  | nil => simp [routeJson] at h
  | cons c cs ih =>
    rw [routeJson] at h
    by_cases hc : containsIndex c ix = true
    · rw [if_pos hc] at h
      cases h
      exact ⟨c, by simp, hc⟩
    · rw [if_neg hc] at h
      rcases Option.map_eq_some'.mp h with ⟨j, hj, rfl⟩
      rcases ih j hj with ⟨d, hd, hmem⟩
      exact ⟨d, by simpa using hd, hmem⟩

/-- No cluster earlier than the routed one contains the index. -/
theorem routeJson_some_least (cs : List (List String)) (ix : JsonValue) (i : Nat)
    (h : routeJson cs ix = some i) :
    ∀ j c, j < i → cs[j]? = some c → containsIndex c ix = false := by
  induction cs generalizing i with
  | nil => simp [routeJson] at h
  | cons c cs ih =>
    rw [routeJson] at h
    by_cases hc : containsIndex c ix = true
    · rw [if_pos hc] at h
      cases h
      intro j d hj
      omega
    · rw [if_neg hc] at h
      rcases Option.map_eq_some'.mp h with ⟨j0, hj0, rfl⟩
      intro j d hj hd
      cases j with
      | zero =>
        rw [List.getElem?_cons_zero] at hd
        cases hd
        simpa using hc
      | succ j1 =>
        rw [List.getElem?_cons_succ] at hd
        exact ih j0 hj0 j1 d (by omega) hd

/-- An unrouted record's index is in no cluster's set. -/
theorem routeJson_none (cs : List (List String)) (ix : JsonValue)
    (h : routeJson cs ix = none) : ∀ c ∈ cs, containsIndex c ix = false := by
  induction cs with
  | nil => intro c hc; simp at hc
  | cons c cs ih =>
    rw [routeJson] at h
    by_cases hc : containsIndex c ix = true
    · rw [if_pos hc] at h; cases h
    · rw [if_neg hc] at h
      intro d hd
      rcases List.mem_cons.mp hd with rfl | hmem
      · simpa using hc
      · exact ih (by simpa using h) d hmem

/-- `appendAt` leaves every position other than the target unchanged, and
appends at the target. -/
theorem appendAt_getElem? (ls : List (List JsonValue)) (i : Nat) (x : JsonValue) :
    ∀ j, (appendAt ls i x)[j]? =
      if j = i then (ls[j]?).map (fun l => l ++ [x]) else ls[j]? := by
  induction ls generalizing i with
  | nil => intro j; simp [appendAt]
  | cons l ls ih =>
    intro j
    cases i with
    | zero =>
      cases j with
      | zero => simp [appendAt]
      | succ j1 => simp [appendAt]
    | succ i1 =>
      cases j with
      | zero => simp [appendAt, Nat.succ_ne_zero]
      | succ j1 =>
        rw [appendAt]
        rw [List.getElem?_cons_succ, List.getElem?_cons_succ, ih i1 j1]
        by_cases hji : j1 = i1
        · rw [if_pos hji, if_pos (by omega)]
        · rw [if_neg hji, if_neg (by omega)]

/-- `appendAt` preserves length. -/
theorem appendAt_length (ls : List (List JsonValue)) (i : Nat) (x : JsonValue) :
    (appendAt ls i x).length = ls.length := by
  induction ls generalizing i with
  | nil => simp [appendAt]
  | cons l ls ih =>
    cases i with
    | zero => simp [appendAt]
    | succ i1 => simp [appendAt, ih i1]

/-- C6: for every validated record and route table, the splitter appends the
record to exactly the lowest-indexed cluster whose set contains its `_index`
(every other sub-batch unchanged, nothing counted or logged), and when no
cluster's set contains it the record is dropped, `missing_index` is counted
and the index logged.  A record whose index appears in several clusters'
sets goes only to the earliest-listed one (all earlier sets do not contain
it, and only position `i` changes). -/
theorem route_determinism (clusters : List (List String)) (st : SplitOut)
    (r : ConsumerRecord) (v ix : JsonValue)
    (hdec : r.payload.decode = some v) (hval : validate v = [])
    (hix : v.getKey "_index" = some ix) :
    (∀ i, routeJson clusters ix = some i →
      processRecord clusters st r = { st with split := appendAt st.split i v } ∧
      i < clusters.length ∧
      (∃ c, clusters[i]? = some c ∧ containsIndex c ix = true) ∧
      (∀ j c, j < i → clusters[j]? = some c → containsIndex c ix = false) ∧
      (processRecord clusters st r).split[i]? =
        (st.split[i]?).map (fun l => l ++ [v]) ∧
      (∀ j, j ≠ i → (processRecord clusters st r).split[j]? = st.split[j]?)) ∧
    (routeJson clusters ix = none →
      processRecord clusters st r =
        { st with
            metrics := { st.metrics with
              missingIndex := st.metrics.missingIndex + 1 }
            logs := st.logs ++ [.missingIndexLog ix] } ∧
      ∀ c ∈ clusters, containsIndex c ix = false) := by
  constructor
  · intro i hroute
    have heq : processRecord clusters st r =
        { st with split := appendAt st.split i v } := by
      unfold processRecord
      rw [hdec]
      simp only [hval, if_pos rfl, if_true, hix, hroute]
    refine ⟨heq, routeJson_lt_length clusters ix i hroute,
      routeJson_some_mem clusters ix i hroute,
      routeJson_some_least clusters ix i hroute, ?_, ?_⟩
    · rw [heq]
      have := appendAt_getElem? st.split i v i
      rw [if_pos rfl] at this
      exact this
    · intro j hj
      rw [heq]
      have := appendAt_getElem? st.split i v j
      rw [if_neg hj] at this
      exact this
  · intro hroute
    constructor
    · unfold processRecord
      rw [hdec]
      simp only [hval, if_pos rfl, if_true, hix, hroute]
    · exact routeJson_none clusters ix hroute

/-- Closed instance of `route_determinism`: an index present in both route
sets goes only to the first cluster. -/
theorem route_determinism_witness :
    processRecord [["a"], ["a", "b"]]
        ⟨[[], []], Metrics.init, []⟩
        ⟨0, Payload.wellFormed []
          (.jobj (.ofList
            [("_index", .jstr "a"), ("_id", .jint 1),
             ("_source", .jobj (.ofList [("popularity_score", .jint 2)]))]))⟩ =
      { split := appendAt [[], []] 0
          (.jobj (.ofList
            [("_index", .jstr "a"), ("_id", .jint 1),
             ("_source", .jobj (.ofList [("popularity_score", .jint 2)]))])),
        metrics := Metrics.init, logs := [] } :=
  ((route_determinism [["a"], ["a", "b"]] ⟨[[], []], Metrics.init, []⟩
      ⟨0, Payload.wellFormed []
        (.jobj (.ofList
          [("_index", .jstr "a"), ("_id", .jint 1),
           ("_source", .jobj (.ofList [("popularity_score", .jint 2)]))]))⟩
      (.jobj (.ofList
        [("_index", .jstr "a"), ("_id", .jint 1),
         ("_source", .jobj (.ofList [("popularity_score", .jint 2)]))]))
      (.jstr "a") rfl (by decide) rfl).1 0 (by decide)).1

/-- One splitter step changes `fail_validate` by one exactly on records that
decode but fail validation. -/
theorem processRecord_failValidate (clusters : List (List String))
    (st : SplitOut) (r : ConsumerRecord) :
    (processRecord clusters st r).metrics.failValidate =
      st.metrics.failValidate + (if failsValidation r then 1 else 0) := by
  cases hdec : r.payload.decode with
  | none => simp [processRecord, failsValidation, hdec]
  | some v =>
    by_cases hval : validate v = []
    · simp only [processRecord, failsValidation, hdec, hval, if_pos rfl, if_true]
      cases hixv : v.getKey "_index" with
      | none => simp [hixv]
      | some ix =>
        cases hroute : routeJson clusters ix with
        | none => simp [hixv, hroute]
        | some i0 => simp [hixv, hroute]
    · have hne : (validate v).isEmpty = false := by
        cases hv : validate v with
        | nil => exact absurd hv hval
        | cons a t => rfl
      simp only [processRecord, failsValidation, hdec, hval, hne,
        Bool.not_false, if_false, if_true]

/-- Folding the splitter over a record list adds exactly the number of
decode-ok but schema-failing records to `fail_validate`. -/
theorem splitFold_failValidate (clusters : List (List String)) :
    ∀ (l : List ConsumerRecord) (st : SplitOut),
    ((l.foldl (processRecord clusters) st).metrics).failValidate =
      st.metrics.failValidate + (l.filter failsValidation).length := by
  intro l
  induction l with
  | nil => intro st; simp
  | cons r t ih =>
    intro st
    rw [List.foldl_cons, ih, processRecord_failValidate]
    by_cases hr : failsValidation r
    · rw [if_pos hr, List.filter_cons_of_pos hr]
      simp
      omega
    · rw [if_neg hr, List.filter_cons_of_neg (by simpa using hr)]
      simp

/-- One splitter step only ever adds schema-valid decoded values to the
sub-batches. -/
theorem processRecord_split_validated (clusters : List (List String))
    (st : SplitOut) (r : ConsumerRecord)
    (hst : ∀ (i : Nat) (li : List JsonValue) (w : JsonValue),
      st.split[i]? = some li → w ∈ li → validate w = []) :
    ∀ (i : Nat) (li : List JsonValue) (w : JsonValue),
      (processRecord clusters st r).split[i]? = some li → w ∈ li →
      validate w = [] := by
  cases hdec : r.payload.decode with
  | none => simpa [processRecord, hdec] using hst
  | some v =>
    by_cases hval : validate v = []
    · cases hixv : v.getKey "_index" with
      | none =>
        simp only [processRecord, hdec, hixv, hval, if_pos rfl, if_true]
        exact hst
      | some ix =>
        cases hroute : routeJson clusters ix with
        | none =>
          simp only [processRecord, hdec, hixv, hroute, hval, if_pos rfl, if_true]
          simpa using hst
        | some i0 =>
          simp only [processRecord, hdec, hixv, hroute, hval, if_pos rfl, if_true]
          intro i li w hget hmem
          rw [appendAt_getElem?] at hget
          by_cases hii : i = i0
          · rw [if_pos hii] at hget
            rcases Option.map_eq_some'.mp hget with ⟨l0, hl0, rfl⟩
            rcases List.mem_append.mp hmem with h | h
            · exact hst i l0 w hl0 h
            · rw [List.mem_singleton] at h
              subst h
              exact hval
          · rw [if_neg hii] at hget
            exact hst i li w hget hmem
    · simpa [processRecord, hdec, hval] using hst

/-- Folding the splitter preserves "every sub-batch member is validated". -/
theorem splitFold_validated (clusters : List (List String)) :
    ∀ (l : List ConsumerRecord) (st : SplitOut),
    (∀ (i : Nat) (li : List JsonValue) (w : JsonValue),
      st.split[i]? = some li → w ∈ li → validate w = []) →
    ∀ (i : Nat) (li : List JsonValue) (w : JsonValue),
      ((l.foldl (processRecord clusters) st).split)[i]? = some li →
      w ∈ li → validate w = [] := by
  intro l
  induction l with
  | nil => exact fun st h => h
  | cons r t ih =>
    intro st hst
    rw [List.foldl_cons]
    exact ih (processRecord clusters st r)
      (processRecord_split_validated clusters st r hst)

/-- C9: a record that decodes but fails schema validation increments
`fail_validate` exactly once and is logged with the complete violation list
(everything `iter_errors` yields, not just the first), with the sub-batches
untouched; no schema-failing record is ever a member of any cluster's
sub-batch over a whole poll response; and over a whole poll response
`fail_validate` grows by exactly the number of schema-failing records. -/
theorem validation_closure (clusters : List (List String)) (st : SplitOut)
    (r : ConsumerRecord) (v : JsonValue)
    (hdec : r.payload.decode = some v) (hval : validate v ≠ []) :
    processRecord clusters st r =
      { st with
          metrics := { st.metrics with
            failValidate := st.metrics.failValidate + 1 }
          logs := st.logs ++ [.validationErrors (validate v)] } ∧
    (∀ (m : Metrics) (poll : List (Nat × List ConsumerRecord)) (i : Nat)
        (li : List JsonValue) (w : JsonValue),
      (split_records_by_cluster clusters m poll).split[i]? = some li →
      w ∈ li → validate w = []) ∧
    (∀ m poll,
      (split_records_by_cluster clusters m poll).metrics.failValidate =
        m.failValidate +
          (((poll.map Prod.snd).flatten).filter failsValidation).length) := by
  refine ⟨?_, ?_, ?_⟩
  · simp only [processRecord, hdec]
    rw [if_neg hval]
  · intro m poll i li w hget hmem
    refine splitFold_validated clusters ((poll.map Prod.snd).flatten)
      ⟨clusters.map (fun _ => []), m, []⟩ ?_ i li w hget hmem
    intro i0 li0 w0 hget0 hmem0
    rw [List.getElem?_map] at hget0
    rcases Option.map_eq_some'.mp hget0 with ⟨c0, _, rfl⟩
    simp at hmem0
  · intro m poll
    exact splitFold_failValidate clusters ((poll.map Prod.snd).flatten)
      ⟨clusters.map (fun _ => []), m, []⟩

/-- Closed instance of `validation_closure`: scenario S2, an empty `_source`
fails validation, is counted once and logged with its violations. -/
theorem validation_closure_witness :
    processRecord [["x"]] ⟨[[]], Metrics.init, []⟩
        ⟨5, Payload.wellFormed []
          (.jobj (.ofList
            [("_index", .jstr "x"), ("_id", .jint 1),
             ("_source", .jobj .nil)]))⟩ =
      { split := [[]],
        metrics := { Metrics.init with failValidate := Metrics.init.failValidate + 1 },
        logs := [.validationErrors (validate
          (.jobj (.ofList
            [("_index", .jstr "x"), ("_id", .jint 1),
             ("_source", .jobj .nil)])))] } :=
  (validation_closure [["x"]] ⟨[[]], Metrics.init, []⟩
    ⟨5, Payload.wellFormed []
      (.jobj (.ofList
        [("_index", .jstr "x"), ("_id", .jint 1),
         ("_source", .jobj .nil)]))⟩
    (.jobj (.ofList
      [("_index", .jstr "x"), ("_id", .jint 1),
       ("_source", .jobj .nil)]))
    rfl (by decide)).1

/-- A key among an object's keys has a lookup value. -/
theorem jsonLookup_isSome_of_key_mem (k : String)
    (fields : List (String × JsonValue)) (h : k ∈ fields.map Prod.fst) :
    ∃ w, jsonLookup k fields = some w := by
  induction fields with
  | nil => simp at h
  | cons kv t ih =>
    rw [jsonLookup]
    by_cases hk : kv.1 = k
    · exact ⟨kv.2, by rw [if_pos hk]⟩
    · rw [if_neg hk]
      apply ih
      rw [List.map_cons, List.mem_cons] at h
      rcases h with heq | hmem
      · exact absurd heq.symm hk
      · exact hmem

/-- A key among a config list's keys has a lookup value. -/
theorem fieldConfigLookup_isSome_of_key_mem (k : String)
    (l : List (String × String)) (h : k ∈ l.map Prod.fst) :
    ∃ p, fieldConfigLookup k l = some p := by
  induction l with
  | nil => simp at h
  | cons kv t ih =>
    rw [fieldConfigLookup]
    by_cases hk : kv.1 = k
    · exact ⟨kv.2, by rw [if_pos hk]⟩
    · rw [if_neg hk]
      apply ih
      rw [List.map_cons, List.mem_cons] at h
      rcases h with heq | hmem
      · exact absurd heq.symm hk
      · exact hmem

/-- If every key is configured, the handler comprehension succeeds and maps
each key, in order, to its configured policy. -/
theorem buildHandlers_ok : ∀ ks : List String,
    (∀ k ∈ ks, ∃ p, fieldConfigLookup k FIELD_CONFIG = some p) →
    ∃ hs, buildHandlers ks = some hs ∧ hs.map Prod.fst = ks ∧
      ∀ kp ∈ hs, fieldConfigLookup kp.1 FIELD_CONFIG = some kp.2 := by
  intro ks
  induction ks with
  | nil => exact fun _ => ⟨[], rfl, rfl, by simp⟩
  | cons k t ih =>
    intro hk
    obtain ⟨p, hp⟩ := hk k (by simp)
    obtain ⟨hs, hb, hm, ha⟩ := ih (fun k2 hk2 => hk k2 (by simp [hk2]))
    refine ⟨(k, p) :: hs, ?_, ?_, ?_⟩
    · rw [buildHandlers, hp, hb]
    · simp [hm]
    · intro kp hkp
      rcases List.mem_cons.mp hkp with rfl | hmem
      · exact hp
      · exact ha kp hmem

/-- C2: for every record that passes schema validation, `expand_action`
produces the action descriptor `{'update': {'_index': the record's _index,
'_type': 'page', '_id': the record's _id}}` and a body whose script is
`super_detect_noop`/`native` with params `handlers` — whose key list equals
the `_source` key list, each key mapped to its configured no-op policy — and
`source`, the record's `_source` unchanged. -/
theorem expand_action_shape (msg : JsonValue) (h : validate msg = []) :
    ∃ (ix idv : JsonValue) (so : JsonObj) (hs : List (String × String)),
      msg.getKey "_index" = some ix ∧
      msg.getKey "_id" = some idv ∧
      msg.getKey "_source" = some (.jobj so) ∧
      expand_action msg =
        some (⟨ix, "page", idv⟩, ⟨"super_detect_noop", "native", hs, .jobj so⟩) ∧
      hs.map Prod.fst = so.toList.map Prod.fst ∧
      (∀ kp ∈ hs, fieldConfigLookup kp.1 FIELD_CONFIG = some kp.2) := by
  cases msg with
  | jnull => simp [validate] at h
  | jbool b => simp [validate] at h
  | jint n => simp [validate] at h
  | jnum a b => simp [validate] at h
  | jstr s => simp [validate] at h
  | jarr a => simp [validate] at h
  | jobj o =>
    simp only [validate] at h
    obtain ⟨hABCD, hE⟩ := List.append_eq_nil.mp h
    obtain ⟨hABC, hD⟩ := List.append_eq_nil.mp hABCD
    obtain ⟨hAB, hC⟩ := List.append_eq_nil.mp hABC
    obtain ⟨hA, hB⟩ := List.append_eq_nil.mp hAB
    have hreq : ∀ k ∈ topLevelKeys, k ∈ o.toList.map Prod.fst := by
      intro k hk
      have hf := List.filter_eq_nil_iff.mp (List.map_eq_nil_iff.mp hB) k hk
      exact List.elem_iff.mp (by simpa using hf)
    obtain ⟨ix, hix⟩ :=
      jsonLookup_isSome_of_key_mem "_index" o.toList (hreq _ (by decide))
    obtain ⟨idv, hid⟩ :=
      jsonLookup_isSome_of_key_mem "_id" o.toList (hreq _ (by decide))
    obtain ⟨src, hsrc⟩ :=
      jsonLookup_isSome_of_key_mem "_source" o.toList (hreq _ (by decide))
    rw [hsrc] at hE
    cases src with
    | jnull => simp [validateSource] at hE
    | jbool b => simp [validateSource] at hE
    | jint n => simp [validateSource] at hE
    | jnum a b => simp [validateSource] at hE
    | jstr s => simp [validateSource] at hE
    | jarr a => simp [validateSource] at hE
    | jobj so =>
      simp only [validateSource] at hE
      obtain ⟨hE12, hE3⟩ := List.append_eq_nil.mp hE
      obtain ⟨hE1, hE2⟩ := List.append_eq_nil.mp hE12
      have hext : ((so.toList.map Prod.fst).filter
          (fun k => !(fieldKeys.contains k))) = [] := by
        by_cases hc : ((so.toList.map Prod.fst).filter
            (fun k => !(fieldKeys.contains k))) = []
        · exact hc
        · rw [if_neg hc] at hE1
          exact absurd hE1 (by simp)
      have hkeys : ∀ k ∈ so.toList.map Prod.fst,
          ∃ p, fieldConfigLookup k FIELD_CONFIG = some p := by
        intro k hk
        have hf := List.filter_eq_nil_iff.mp hext k hk
        have hmemk : k ∈ FIELD_CONFIG.map Prod.fst := by
          simpa [fieldKeys] using hf
        exact fieldConfigLookup_isSome_of_key_mem k FIELD_CONFIG hmemk
      obtain ⟨hs, hbuild, hmap, hall⟩ :=
        buildHandlers_ok (so.toList.map Prod.fst) hkeys
      refine ⟨ix, idv, so, hs, hix, hid, hsrc, ?_, hmap, hall⟩
      simp only [expand_action, JsonValue.getKey, hix, hid, hsrc, hbuild]

/-- Closed instance of `expand_action_shape` at scenario S1's record. -/
theorem expand_action_shape_witness :
    ∃ (ix idv : JsonValue) (so : JsonObj) (hs : List (String × String)),
      sampleRecord.getKey "_index" = some ix ∧
      sampleRecord.getKey "_id" = some idv ∧
      sampleRecord.getKey "_source" = some (.jobj so) ∧
      expand_action sampleRecord =
        some (⟨ix, "page", idv⟩, ⟨"super_detect_noop", "native", hs, .jobj so⟩) ∧
      hs.map Prod.fst = so.toList.map Prod.fst ∧
      (∀ kp ∈ hs, fieldConfigLookup kp.1 FIELD_CONFIG = some kp.2) :=
  expand_action_shape sampleRecord (by decide)

/-- A routed record's step appends its value to the routed sub-batch. -/
theorem processRecord_routed (clusters : List (List String)) (st : SplitOut)
    (r : ConsumerRecord) (v ix : JsonValue) (i : Nat)
    (hdec : r.payload.decode = some v) (hval : validate v = [])
    (hix : v.getKey "_index" = some ix)
    (hroute : routeJson clusters ix = some i) :
    processRecord clusters st r = { st with split := appendAt st.split i v } := by
  simp only [processRecord, hdec, hval, if_pos rfl, if_true, hix, hroute]

/-- One splitter step never changes the number of sub-batches. -/
theorem processRecord_split_length (clusters : List (List String))
    (st : SplitOut) (r : ConsumerRecord) :
    (processRecord clusters st r).split.length = st.split.length := by
  cases hdec : r.payload.decode with
  | none => simp [processRecord, hdec]
  | some v =>
    by_cases hval : validate v = []
    · cases hixv : v.getKey "_index" with
      | none => simp [processRecord, hdec, hixv, hval]
      | some ix =>
        cases hroute : routeJson clusters ix with
        | none => simp [processRecord, hdec, hixv, hroute, hval]
        | some i0 =>
          rw [processRecord_routed clusters st r v ix i0 hdec hval hixv hroute]
          exact appendAt_length st.split i0 v
    · simp [processRecord, hdec, hval]

/-- The splitter fold never changes the number of sub-batches. -/
theorem splitFold_split_length (clusters : List (List String)) :
    ∀ (l : List ConsumerRecord) (st : SplitOut),
    ((l.foldl (processRecord clusters) st).split).length = st.split.length := by
  intro l
  induction l with
  | nil => intro st; rfl
  | cons r t ih =>
    intro st
    rw [List.foldl_cons, ih, processRecord_split_length]

/-- One splitter step keeps every value already in a sub-batch. -/
theorem processRecord_split_mono (clusters : List (List String))
    (st : SplitOut) (r : ConsumerRecord) (i : Nat) (li : List JsonValue)
    (v : JsonValue) (h : st.split[i]? = some li) (hv : v ∈ li) :
    ∃ li', (processRecord clusters st r).split[i]? = some li' ∧ v ∈ li' := by
  cases hdec : r.payload.decode with
  | none => exact ⟨li, by simp [processRecord, hdec, h], hv⟩
  | some w =>
    by_cases hval : validate w = []
    · cases hixv : w.getKey "_index" with
      | none => exact ⟨li, by simp [processRecord, hdec, hixv, hval, h], hv⟩
      | some ix =>
        cases hroute : routeJson clusters ix with
        | none =>
          exact ⟨li, by simp [processRecord, hdec, hixv, hroute, hval, h], hv⟩
        | some i0 =>
          rw [processRecord_routed clusters st r w ix i0 hdec hval hixv hroute]
          by_cases hii : i = i0
          · refine ⟨li ++ [w], ?_, List.mem_append_left _ hv⟩
            simp only
            rw [appendAt_getElem?, if_pos hii, h]
            rfl
          · refine ⟨li, ?_, hv⟩
            simp only
            rw [appendAt_getElem?, if_neg hii]
            exact h
    · exact ⟨li, by simp [processRecord, hdec, hval, h], hv⟩

/-- The splitter fold keeps every value already in a sub-batch. -/
theorem splitFold_mem_mono (clusters : List (List String)) :
    ∀ (l : List ConsumerRecord) (st : SplitOut) (i : Nat)
      (li : List JsonValue) (v : JsonValue),
    st.split[i]? = some li → v ∈ li →
    ∃ li', ((l.foldl (processRecord clusters) st).split)[i]? = some li' ∧
      v ∈ li' := by
  intro l
  induction l with
  | nil => exact fun st i li v h hv => ⟨li, h, hv⟩
  | cons r t ih =>
    intro st i li v h hv
    rw [List.foldl_cons]
    obtain ⟨li1, h1, hv1⟩ := processRecord_split_mono clusters st r i li v h hv
    exact ih (processRecord clusters st r) i li1 v h1 hv1

/-- A routed record of the processed list ends up in the routed sub-batch. -/
theorem splitFold_adds (clusters : List (List String))
    (l : List ConsumerRecord) (st : SplitOut) (r : ConsumerRecord)
    (v ix : JsonValue) (i : Nat)
    (hr : r ∈ l) (hdec : r.payload.decode = some v) (hval : validate v = [])
    (hix : v.getKey "_index" = some ix)
    (hroute : routeJson clusters ix = some i)
    (hlen : st.split.length = clusters.length) :
    ∃ li, ((l.foldl (processRecord clusters) st).split)[i]? = some li ∧
      v ∈ li := by
  obtain ⟨l1, l2, rfl⟩ := List.append_of_mem hr
  rw [List.foldl_append, List.foldl_cons]
  have hlen1 : ((l1.foldl (processRecord clusters) st).split).length =
      clusters.length := by
    rw [splitFold_split_length]; exact hlen
  have hi : i < ((l1.foldl (processRecord clusters) st).split).length := by
    rw [hlen1]; exact routeJson_lt_length clusters ix i hroute
  obtain ⟨li0, hli0⟩ :
      ∃ li0, ((l1.foldl (processRecord clusters) st).split)[i]? = some li0 :=
    ⟨_, List.getElem?_eq_getElem hi⟩
  have hstep := processRecord_routed clusters
    (l1.foldl (processRecord clusters) st) r v ix i hdec hval hix hroute
  have hmem : ((processRecord clusters (l1.foldl (processRecord clusters) st)
      r).split)[i]? = some (li0 ++ [v]) := by
    rw [hstep]
    simp only
    rw [appendAt_getElem?, if_pos rfl, hli0]
    rfl
  exact splitFold_mem_mono clusters l2 _ i (li0 ++ [v]) v hmem
    (List.mem_append_right _ (List.mem_singleton.mpr rfl))

/-- A non-empty sub-batch at position `i` yields its submit event. -/
theorem submitEvents_mem : ∀ (ls : List (List JsonValue)) (k i : Nat)
    (li : List JsonValue), ls[i]? = some li → li ≠ [] →
    Event.submit (k + i) li ∈ submitEvents k ls := by
  intro ls
  induction ls with
  | nil => intro k i li h; simp at h
  | cons rs rest ih =>
    intro k i li h hne
    cases i with
    | zero =>
      rw [List.getElem?_cons_zero] at h
      cases h
      rw [submitEvents]
      rw [if_neg hne]
      simp
    | succ i1 =>
      rw [List.getElem?_cons_succ] at h
      rw [submitEvents]
      have := ih (k + 1) i1 li h hne
      rw [List.mem_append]
      right
      have harith : k + 1 + i1 = k + (i1 + 1) := by omega
      rw [harith] at this
      exact this

/-- Everything `submitEvents` emits is a submit event. -/
theorem submitEvents_shape : ∀ (ls : List (List JsonValue)) (k : Nat)
    (e : Event), e ∈ submitEvents k ls → ∃ i li, e = Event.submit i li := by
  intro ls
  induction ls with
  | nil => intro k e h; simp [submitEvents] at h
  | cons rs rest ih =>
    intro k e h
    rw [submitEvents, List.mem_append] at h
    rcases h with h | h
    · by_cases hne : rs = []
      · rw [if_pos hne] at h; simp at h
      · rw [if_neg hne] at h
        rw [List.mem_singleton] at h
        exact ⟨k, rs, h⟩
    · exact ih (k + 1) e h

/-- Everything `stageEventsOf` emits is a stage event. -/
theorem stageEventsOf_shape (batch : List (Nat × List ConsumerRecord))
    (e : Event) (h : e ∈ stageEventsOf batch) :
    ∃ p o, e = Event.stage p o := by
  rw [stageEventsOf, List.mem_filterMap] at h
  obtain ⟨pr, _, hpr⟩ := h
  rcases Option.map_eq_some'.mp hpr with ⟨last, _, rfl⟩
  exact ⟨pr.1, last.offset + 1, rfl⟩

/-- The commit gate emits either nothing or the single async commit of the
staged offsets. -/
theorem commitGate_commitAsync_mem (st : RunState) (now : Int)
    (ofs : List (Nat × Nat)) (h : Event.commitAsync ofs ∈ (commitGate st now).2) :
    ofs = st.offsets := by
  unfold commitGate at h
  by_cases hc : st.offsets ≠ [] ∧ now - st.lastCommit > 60
  · rw [if_pos hc] at h
    rw [List.mem_singleton] at h
    cases h
    rfl
  · rw [if_neg hc] at h
    simp at h

/-- Any event the commit gate emits is an async commit. -/
theorem commitGate_shape (st : RunState) (now : Int) (e : Event)
    (h : e ∈ (commitGate st now).2) : ∃ ofs, e = Event.commitAsync ofs := by
  unfold commitGate at h
  by_cases hc : st.offsets ≠ [] ∧ now - st.lastCommit > 60
  · rw [if_pos hc] at h
    rw [List.mem_singleton] at h
    exact ⟨st.offsets, h⟩
  · rw [if_neg hc] at h
    simp at h

/-- The gate only ever keeps or clears the staged offsets. -/
theorem commitGate_offsets_sub (st : RunState) (now : Int) (p o : Nat)
    (h : (p, o) ∈ (commitGate st now).1.offsets) : (p, o) ∈ st.offsets := by
  unfold commitGate at h
  by_cases hc : st.offsets ≠ [] ∧ now - st.lastCommit > 60
  · rw [if_pos hc] at h
    simp at h
  · rw [if_neg hc] at h
    exact h

/-- The gate never changes the metric counters. -/
theorem commitGate_metrics (st : RunState) (now : Int) :
    (commitGate st now).1.metrics = st.metrics := by
  unfold commitGate
  by_cases hc : st.offsets ≠ [] ∧ now - st.lastCommit > 60
  · rw [if_pos hc]
  · rw [if_neg hc]

/-- Dict assignment only rewrites the assigned key. -/
theorem setAssoc_mem : ∀ (l : List (Nat × Nat)) (q v p o : Nat),
    (p, o) ∈ setAssoc l q v → (p, o) ∈ l ∨ (p = q ∧ o = v) := by
  intro l
  induction l with
  | nil =>
    intro q v p o h
    rw [setAssoc, List.mem_singleton] at h
    cases h
    exact Or.inr ⟨rfl, rfl⟩
  | cons qw rest ih =>
    intro q v p o h
    rw [setAssoc] at h
    by_cases hq : qw.1 = q
    · rw [if_pos hq] at h
      rcases List.mem_cons.mp h with heq | hmem
      · cases heq
        exact Or.inr ⟨hq, rfl⟩
      · exact Or.inl (List.mem_cons_of_mem _ hmem)
    · rw [if_neg hq] at h
      rcases List.mem_cons.mp h with heq | hmem
      · exact Or.inl (heq ▸ List.mem_cons_self _ _)
      · rcases ih q v p o hmem with hl | hr
        · exact Or.inl (List.mem_cons_of_mem _ hl)
        · exact Or.inr hr

/-- Every staged offset comes from the carried map or from the last record
of a polled partition. -/
theorem stageOffsets_mem : ∀ (batch : List (Nat × List ConsumerRecord))
    (base : List (Nat × Nat)) (p o : Nat),
    (p, o) ∈ stageOffsets base batch →
    (p, o) ∈ base ∨ ∃ pr, pr ∈ batch ∧ pr.1 = p ∧
      ∃ last, pr.2.getLast? = some last ∧ o = last.offset + 1 := by
  intro batch
  induction batch with
  | nil => intro base p o h; exact Or.inl h
  | cons pr rest ih =>
    intro base p o h
    rw [stageOffsets, List.foldl_cons] at h
    rw [← stageOffsets] at h
    cases hlast : pr.2.getLast? with
    | none =>
      rw [hlast] at h
      rcases ih base p o h with hl | ⟨pr2, hpr2, hp2, hrest⟩
      · exact Or.inl hl
      · exact Or.inr ⟨pr2, List.mem_cons_of_mem _ hpr2, hp2, hrest⟩
    | some last =>
      rw [hlast] at h
      rcases ih (setAssoc base pr.1 (last.offset + 1)) p o h with hl |
          ⟨pr2, hpr2, hp2, hrest⟩
      · rcases setAssoc_mem base pr.1 (last.offset + 1) p o hl with hb | ⟨hp, ho⟩
        · exact Or.inl hb
        · exact Or.inr ⟨pr, List.mem_cons_self _ _, hp.symm, last, hlast, ho⟩
      · exact Or.inr ⟨pr2, List.mem_cons_of_mem _ hpr2, hp2, hrest⟩

/-- A record of partition `p`'s list is among the batch's flattened records. -/
theorem mem_flatten_of_mem_recsOf (p : Nat)
    (batch : List (Nat × List ConsumerRecord)) (r : ConsumerRecord)
    (h : r ∈ recsOf p batch) : r ∈ (batch.map Prod.snd).flatten := by
  rw [recsOf] at h
  rw [List.mem_flatten] at h ⊢
  obtain ⟨rs, hrs, hmem⟩ := h
  rw [List.mem_map] at hrs
  obtain ⟨pr, hpr, rfl⟩ := hrs
  exact ⟨pr.2, List.mem_map_of_mem Prod.snd (List.mem_of_mem_filter hpr), hmem⟩

/-- A batch with a record on some partition is non-empty. -/
theorem batch_ne_nil_of_mem_recsOf (p : Nat)
    (batch : List (Nat × List ConsumerRecord)) (r : ConsumerRecord)
    (h : r ∈ recsOf p batch) : batch ≠ [] := by
  intro hb
  subst hb
  simp [recsOf] at h

/-- The last record of a polled partition is among that partition's records. -/
theorem getLast_mem_recsOf (p : Nat) (batch : List (Nat × List ConsumerRecord))
    (pr : Nat × List ConsumerRecord) (last : ConsumerRecord)
    (hpr : pr ∈ batch) (hp : pr.1 = p) (hlast : pr.2.getLast? = some last) :
    last ∈ recsOf p batch := by
  rw [recsOf, List.mem_flatten]
  refine ⟨pr.2, ?_, List.mem_of_getLast?_eq_some hlast⟩
  refine List.mem_map_of_mem Prod.snd ?_
  rw [List.mem_filter]
  exact ⟨hpr, by simp [hp]⟩

/-- `allRecs` unfolds one iteration at a time. -/
theorem allRecs_cons (p : Nat) (inp : IterInput) (rest : List IterInput) :
    allRecs p (inp :: rest) = recsOf p inp.batch ++ allRecs p rest := by
  simp [allRecs]

/-- A record of iteration `m` is among the run's records for its partition. -/
theorem mem_allRecs_of_getElem (p : Nat) (inputs : List IterInput) (m : Nat)
    (inpm : IterInput) (r : ConsumerRecord) (hm : inputs[m]? = some inpm)
    (hr : r ∈ recsOf p inpm.batch) : r ∈ allRecs p inputs := by
  rw [allRecs, List.mem_flatten]
  exact ⟨recsOf p inpm.batch,
    List.mem_map_of_mem _ (List.getElem?_mem hm), hr⟩

/-- The only async commit an iteration can issue carries the offsets staged
when the iteration started. -/
theorem runIter_commitAsync (clusters : List (List String)) (st : RunState)
    (inp : IterInput) (ofs : List (Nat × Nat))
    (h : Event.commitAsync ofs ∈ (runIter clusters st inp).2) :
    ofs = st.offsets := by
  unfold runIter at h
  by_cases hb : inp.batch = []
  · rw [if_pos hb] at h
    exact commitGate_commitAsync_mem st inp.now ofs h
  · rw [if_neg hb] at h
    simp only at h
    rw [List.mem_append] at h
    rcases h with h | h
    · rw [List.mem_append] at h
      rcases h with h | h
      · rw [List.mem_append] at h
        rcases h with h | h
        · exact commitGate_commitAsync_mem st inp.now ofs h
        · rw [List.mem_map] at h
          obtain ⟨le, _, hle⟩ := h
          cases hle
      · obtain ⟨i, li, hsh⟩ := submitEvents_shape _ 0 _ h
        cases hsh
    · obtain ⟨p, o, hsh⟩ := stageEventsOf_shape inp.batch _ h
      cases hsh

/-- Every offset staged after an iteration either was staged before it or is
`last.offset + 1` for a partition of the iteration's poll response. -/
theorem runIter_offsets_mem (clusters : List (List String)) (st : RunState)
    (inp : IterInput) (p o : Nat)
    (h : (p, o) ∈ (runIter clusters st inp).1.offsets) :
    (p, o) ∈ st.offsets ∨ ∃ pr, pr ∈ inp.batch ∧ pr.1 = p ∧
      ∃ last, pr.2.getLast? = some last ∧ o = last.offset + 1 := by
  unfold runIter at h
  by_cases hb : inp.batch = []
  · rw [if_pos hb] at h
    exact Or.inl (commitGate_offsets_sub st inp.now p o h)
  · rw [if_neg hb] at h
    simp only at h
    rcases stageOffsets_mem inp.batch (commitGate st inp.now).1.offsets p o h
        with hbase | hst
    · exact Or.inl (commitGate_offsets_sub st inp.now p o hbase)
    · exact Or.inr hst

/-- A routed record of an iteration's poll response is submitted, inside that
iteration's events, to its routed cluster. -/
theorem runIter_submits (clusters : List (List String)) (st : RunState)
    (inp : IterInput) (p : Nat) (r : ConsumerRecord) (v ix : JsonValue)
    (i : Nat) (hr : r ∈ recsOf p inp.batch)
    (hdec : r.payload.decode = some v) (hval : validate v = [])
    (hix : v.getKey "_index" = some ix)
    (hroute : routeJson clusters ix = some i) :
    ∃ vs, Event.submit i vs ∈ (runIter clusters st inp).2 ∧ v ∈ vs := by
  have hb : inp.batch ≠ [] := batch_ne_nil_of_mem_recsOf p inp.batch r hr
  have hflat : r ∈ (inp.batch.map Prod.snd).flatten :=
    mem_flatten_of_mem_recsOf p inp.batch r hr
  obtain ⟨li, hget, hmem⟩ := splitFold_adds clusters
    ((inp.batch.map Prod.snd).flatten)
    ⟨clusters.map (fun _ => []),
      { (commitGate st inp.now).1.metrics with
        recordsProcessed := (commitGate st inp.now).1.metrics.recordsProcessed +
          countRecords inp.batch }, []⟩
    r v ix i hflat hdec hval hix hroute (by simp)
  refine ⟨li, ?_, hmem⟩
  have hget2 : (split_records_by_cluster clusters
      { (commitGate st inp.now).1.metrics with
        recordsProcessed := (commitGate st inp.now).1.metrics.recordsProcessed +
          countRecords inp.batch } inp.batch).split[i]? = some li := hget
  unfold runIter
  rw [if_neg hb]
  simp only
  rw [List.mem_append]
  left
  rw [List.mem_append]
  right
  have := submitEvents_mem _ 0 i li hget2 (List.ne_nil_of_mem hmem)
  simpa using this

/-- The per-iteration event list of a trace, one `cons` at a time. -/
theorem runTrace_cons_snd (clusters : List (List String)) (st : RunState)
    (inp : IterInput) (rest : List IterInput) :
    (runTrace clusters st (inp :: rest)).2 =
      (runIter clusters st inp).2 ::
        (runTrace clusters (runIter clusters st inp).1 rest).2 := rfl

/-- Decomposition of an event list of the shape one iteration emits: some
commits and log lines, then all the submits, then the staging events. -/
theorem events_shape_core (g2 : List Event) (logs : List LogEvent)
    (split : List (List JsonValue)) (batch : List (Nat × List ConsumerRecord))
    (hg : ∀ e ∈ g2, ∃ ofs, e = Event.commitAsync ofs) :
    ∃ pre sub,
      g2 ++ logs.map Event.logged ++ submitEvents 0 split ++
          stageEventsOf batch =
        pre ++ sub ++ stageEventsOf batch ∧
      (∀ e ∈ pre, e.isSubmit = false ∧ e.isStage = false) ∧
      (∀ e ∈ sub, e.isSubmit = true) := by
  refine ⟨g2 ++ logs.map Event.logged, submitEvents 0 split, rfl, ?_, ?_⟩
  · intro e he
    rcases List.mem_append.mp he with h | h
    · obtain ⟨ofs, rfl⟩ := hg e h
      exact ⟨rfl, rfl⟩
    · rw [List.mem_map] at h
      obtain ⟨le, _, rfl⟩ := h
      exact ⟨rfl, rfl⟩
  · intro e he
    obtain ⟨i, li, rfl⟩ := submitEvents_shape split 0 e he
    rfl

/-- Within one iteration, the offset-staging events come after every submit
event (and after the commit/log events as well). -/
theorem runIter_shape (clusters : List (List String)) (st : RunState)
    (inp : IterInput) :
    ∃ pre sub, (runIter clusters st inp).2 =
      pre ++ sub ++ stageEventsOf inp.batch ∧
      (∀ e ∈ pre, e.isSubmit = false ∧ e.isStage = false) ∧
      (∀ e ∈ sub, e.isSubmit = true) := by
  by_cases hb : inp.batch = []
  · refine ⟨(commitGate st inp.now).2, [], ?_, ?_, by simp⟩
    · unfold runIter
      rw [if_pos hb]
      rw [hb]
      simp [stageEventsOf]
    · intro e he
      obtain ⟨ofs, rfl⟩ := commitGate_shape st inp.now e he
      exact ⟨rfl, rfl⟩
  · unfold runIter
    rw [if_neg hb]
    simp only
    exact events_shape_core (commitGate st inp.now).2 _ _ inp.batch
      (commitGate_shape st inp.now)

/-- Per-iteration ordering over a whole trace. -/
theorem runTrace_iter_shape (clusters : List (List String)) :
    ∀ (inputs : List IterInput) (st : RunState) (m : Nat)
      (evsm : List Event) (inpm : IterInput),
    ((runTrace clusters st inputs).2)[m]? = some evsm →
    inputs[m]? = some inpm →
    ∃ pre sub, evsm = pre ++ sub ++ stageEventsOf inpm.batch ∧
      (∀ e ∈ pre, e.isSubmit = false ∧ e.isStage = false) ∧
      (∀ e ∈ sub, e.isSubmit = true) := by
  intro inputs
  induction inputs with
  | nil => intro st m evsm inpm _ hm; simp at hm
  | cons inp rest ih =>
    intro st m evsm inpm hn hm
    rw [runTrace_cons_snd] at hn
    cases m with
    | zero =>
      rw [List.getElem?_cons_zero] at hn hm
      cases hn
      cases hm
      exact runIter_shape clusters st inp
    | succ m1 =>
      rw [List.getElem?_cons_succ] at hn hm
      exact ih (runIter clusters st inp).1 m1 evsm inpm hn hm

/-- Every record of iteration `m` that decodes, validates and routes is
submitted to its routed cluster within iteration `m`'s events. -/
theorem runTrace_submits (clusters : List (List String)) :
    ∀ (inputs : List IterInput) (st : RunState) (m : Nat) (inpm : IterInput)
      (p : Nat) (r : ConsumerRecord) (v ix : JsonValue) (i : Nat),
      inputs[m]? = some inpm → r ∈ recsOf p inpm.batch →
      r.payload.decode = some v → validate v = [] →
      v.getKey "_index" = some ix → routeJson clusters ix = some i →
      ∃ evsm vs, ((runTrace clusters st inputs).2)[m]? = some evsm ∧
        Event.submit i vs ∈ evsm ∧ v ∈ vs := by
  intro inputs
  induction inputs with
  | nil => intro st m inpm p r v ix i hm; simp at hm
  | cons inp rest ih =>
    intro st m inpm p r v ix i hm hr hdec hval hix hroute
    cases m with
    | zero =>
      rw [List.getElem?_cons_zero] at hm
      cases hm
      obtain ⟨vs, hmem, hv⟩ := runIter_submits clusters st inp p r v ix i hr
        hdec hval hix hroute
      refine ⟨(runIter clusters st inp).2, vs, ?_, hmem, hv⟩
      rw [runTrace_cons_snd, List.getElem?_cons_zero]
    | succ m1 =>
      rw [List.getElem?_cons_succ] at hm
      obtain ⟨evsm, vs, hget, hmem, hv⟩ := ih (runIter clusters st inp).1 m1
        inpm p r v ix i hm hr hdec hval hix hroute
      refine ⟨evsm, vs, ?_, hmem, hv⟩
      rw [runTrace_cons_snd, List.getElem?_cons_succ]
      exact hget

/-- For every async commit the trace issues at iteration `n`, every record
with a smaller offset on a committed partition was polled at an earlier
iteration. -/
theorem runTrace_commit_origin (clusters : List (List String)) :
    ∀ (inputs : List IterInput) (st : RunState),
    (∀ p o, (p, o) ∈ st.offsets → ∀ b ∈ allRecs p inputs, o ≤ b.offset) →
    (∀ p, List.Pairwise (fun a b => a.offset < b.offset) (allRecs p inputs)) →
    ∀ (n : Nat) (evsn : List Event) (ofs : List (Nat × Nat)) (p o : Nat),
      ((runTrace clusters st inputs).2)[n]? = some evsn →
      Event.commitAsync ofs ∈ evsn → (p, o) ∈ ofs →
      ∀ (m : Nat) (inpm : IterInput) (r : ConsumerRecord),
        inputs[m]? = some inpm → r ∈ recsOf p inpm.batch →
        r.offset < o → m < n := by
  intro inputs
  induction inputs with
  | nil =>
    intro st _ _ n evsn ofs p o hn
    simp [runTrace] at hn
  | cons inp rest ih =>
    intro st hhyp hmono n evsn ofs p o hn hc hpo m inpm r hm hr hro
    rw [runTrace_cons_snd] at hn
    cases n with
    | zero =>
      rw [List.getElem?_cons_zero] at hn
      cases hn
      have hofs := runIter_commitAsync clusters st inp ofs hc
      subst hofs
      have hle := hhyp p o hpo r
        (mem_allRecs_of_getElem p (inp :: rest) m inpm r hm hr)
      omega
    | succ n1 =>
      rw [List.getElem?_cons_succ] at hn
      cases m with
      | zero => omega
      | succ m1 =>
        rw [List.getElem?_cons_succ] at hm
        have hhyp2 : ∀ p2 o2, (p2, o2) ∈ (runIter clusters st inp).1.offsets →
            ∀ b ∈ allRecs p2 rest, o2 ≤ b.offset := by
          intro p2 o2 hmem b hb
          rcases runIter_offsets_mem clusters st inp p2 o2 hmem with hold |
              ⟨pr, hpr, hp2, last, hlast, ho2⟩
          · refine hhyp p2 o2 hold b ?_
            rw [allRecs_cons]
            exact List.mem_append_right _ hb
          · have hlmem : last ∈ recsOf p2 inp.batch :=
              getLast_mem_recsOf p2 inp.batch pr last hpr hp2 hlast
            have hmono2 := hmono p2
            rw [allRecs_cons] at hmono2
            have hlt := (List.pairwise_append.mp hmono2).2.2 last hlmem b hb
            omega
        have hmono2 : ∀ p2, List.Pairwise (fun a b => a.offset < b.offset)
            (allRecs p2 rest) := by
          intro p2
          have h2 := hmono p2
          rw [allRecs_cons] at h2
          exact (List.pairwise_append.mp h2).2.1
        have := ih (runIter clusters st inp).1 hhyp2 hmono2 n1 evsn ofs p o hn
          hc hpo m1 inpm r hm hr hro
        omega

/-- C1 counterexample: the poll delivers one record (offset 7, partition 0)
whose payload is malformed; it is dropped, yet next-offset 8 is staged and
asynchronously committed on the next iteration while NO submit event exists
anywhere in the trace.  So there is a committed offset o = 8 on partition 0
and a polled record with offset 7 < 8 that was never passed to the bulk
submitter, refuting the claim as stated (both its "every record of that poll
batch has been passed to the bulk submitter" part and its "every record with
offset < o was submitted at least once before the commit" part). -/
theorem offset_safety_counterexample :
    ((runTrace [["enwiki_content"]] (initState Metrics.init)
        [⟨0, [(0, [⟨7, Payload.malformed [65]⟩])]⟩, ⟨100, []⟩]).2 =
      [[Event.logged (.invalidMessage [65]), Event.stage 0 8],
       [Event.commitAsync [(0, 8)]]]) ∧
    (((runTrace [["enwiki_content"]] (initState Metrics.init)
        [⟨0, [(0, [⟨7, Payload.malformed [65]⟩])]⟩, ⟨100, []⟩]).2).flatten.all
      (fun e => !e.isSubmit) = true) ∧
    (7 : Nat) < 8 := by
  exact ⟨by decide, by decide, by decide⟩

/-- C1 (amended): assuming per-partition offsets strictly increase across the
polled records of a run (kafka's per-partition delivery order), then:
(1) within every iteration the offset-staging events come after all submit
events, i.e. offsets are staged only after every submitted sub-batch's
`stream_to_es` call has returned;
(2) for every asynchronously committed offset `o` on partition `p` at
iteration `n`, every polled record of `p` with offset < `o` was polled at an
iteration `m < n`, and if that record decodes, validates and routes to a
cluster it was passed to the bulk submitter within iteration `m`'s events —
i.e. before the commit;
(3) the same holds for the offsets still staged at shutdown (they are
covered by the final synchronous commit): the records below them were polled
at some iteration of the run and, when routed, submitted there.
Records that are dropped (malformed, schema-failing, or unroutable) are
exempted from submission — that is the amendment the counterexample forces. -/
theorem offset_safety_amended (clusters : List (List String))
    (inputs : List IterInput) (m0 : Metrics)
    (hmono : ∀ p, List.Pairwise (fun a b => a.offset < b.offset)
      (allRecs p inputs)) :
    (∀ (m : Nat) (evsm : List Event) (inpm : IterInput),
      ((runTrace clusters (initState m0) inputs).2)[m]? = some evsm →
      inputs[m]? = some inpm →
      ∃ pre sub, evsm = pre ++ sub ++ stageEventsOf inpm.batch ∧
        (∀ e ∈ pre, e.isSubmit = false ∧ e.isStage = false) ∧
        (∀ e ∈ sub, e.isSubmit = true)) ∧
    (∀ (n : Nat) (evsn : List Event) (ofs : List (Nat × Nat)) (p o : Nat),
      ((runTrace clusters (initState m0) inputs).2)[n]? = some evsn →
      Event.commitAsync ofs ∈ evsn → (p, o) ∈ ofs →
      ∀ (m : Nat) (inpm : IterInput) (r : ConsumerRecord),
        inputs[m]? = some inpm → r ∈ recsOf p inpm.batch → r.offset < o →
        m < n ∧
        (∀ (v ix : JsonValue) (i : Nat), r.payload.decode = some v →
          validate v = [] → v.getKey "_index" = some ix →
          routeJson clusters ix = some i →
          ∃ evsm vs,
            ((runTrace clusters (initState m0) inputs).2)[m]? = some evsm ∧
            Event.submit i vs ∈ evsm ∧ v ∈ vs)) ∧
    (∀ (p o : Nat),
      (p, o) ∈ (runTrace clusters (initState m0) inputs).1.offsets →
      ∀ (m : Nat) (inpm : IterInput) (r : ConsumerRecord),
        inputs[m]? = some inpm → r ∈ recsOf p inpm.batch → r.offset < o →
        m < inputs.length ∧
        (∀ (v ix : JsonValue) (i : Nat), r.payload.decode = some v →
          validate v = [] → v.getKey "_index" = some ix →
          routeJson clusters ix = some i →
          ∃ evsm vs,
            ((runTrace clusters (initState m0) inputs).2)[m]? = some evsm ∧
            Event.submit i vs ∈ evsm ∧ v ∈ vs)) := by
  refine ⟨?_, ?_, ?_⟩
  · intro m evsm inpm hn hm
    exact runTrace_iter_shape clusters inputs (initState m0) m evsm inpm hn hm
  · intro n evsn ofs p o hn hc hpo m inpm r hm hr hro
    constructor
    · refine runTrace_commit_origin clusters inputs (initState m0) ?_ hmono
        n evsn ofs p o hn hc hpo m inpm r hm hr hro
      intro p2 o2 h2
      simp [initState] at h2
    · intro v ix i hdec hval hix hroute
      exact runTrace_submits clusters inputs (initState m0) m inpm p r v ix i
        hm hr hdec hval hix hroute
  · intro p o hpo m inpm r hm hr hro
    constructor
    · exact (List.getElem?_eq_some.mp hm).1
    · intro v ix i hdec hval hix hroute
      exact runTrace_submits clusters inputs (initState m0) m inpm p r v ix i
        hm hr hdec hval hix hroute

/-- Closed instance of `offset_safety_amended`: one valid record (offset 7 on
partition 0) is submitted in iteration 0, and the async commit of offset 8 at
iteration 1 happens strictly later. -/
theorem offset_safety_amended_witness :
    0 < 1 ∧
    ∃ evsm vs,
      ((runTrace [["enwiki_content"]] (initState Metrics.init)
          [⟨0, [(0, [⟨7, Payload.wellFormed [] sampleRecord⟩])]⟩,
           ⟨100, []⟩]).2)[0]? = some evsm ∧
      Event.submit 0 vs ∈ evsm ∧ sampleRecord ∈ vs := by
  have hmono : ∀ p, List.Pairwise (fun a b => a.offset < b.offset)
      (allRecs p [⟨0, [(0, [⟨7, Payload.wellFormed [] sampleRecord⟩])]⟩,
        (⟨100, []⟩ : IterInput)]) := by
    intro p
    by_cases hp : p = 0
    · subst hp
      decide
    · have hz : (0 == p) = false := beq_eq_false_iff_ne.mpr (Ne.symm hp)
      simp [allRecs, recsOf, hz]
  have h := (offset_safety_amended [["enwiki_content"]]
    [⟨0, [(0, [⟨7, Payload.wellFormed [] sampleRecord⟩])]⟩, ⟨100, []⟩]
    Metrics.init hmono).2.1
  have h2 := h 1 [Event.commitAsync [(0, 8)]] [(0, 8)] 0 8 (by decide)
    (by decide) (by decide) 0 ⟨0, [(0, [⟨7, Payload.wellFormed [] sampleRecord⟩])]⟩
    ⟨7, Payload.wellFormed [] sampleRecord⟩ (by decide) (by decide) (by decide)
  exact ⟨h2.1, h2.2 sampleRecord (.jstr "enwiki_content") 0 rfl (by decide)
    (by decide) (by decide)⟩
